import Mathlib

/-!
Verification of the EEB-BCI lookup-table generators.

The repository holds two generator scripts:

* `src/scripts/acos_lut_gen.py` writes `acos_lut.mem`: 256 records, each the
  Q2.13 quantization of `acos((i / 127.5) - 1.0)` clamped to `[-1, 1]`,
  rendered as zero-padded 4-character lowercase hex.
* `src/scripts/lut_gen.py` writes `sigmoid_lut.mem`: 3 comment header lines
  followed by 1024 records; entry `i` samples `x = -8.0 + i * 16.0/1024`,
  computes `sigmoid(x)` and its derivative, converts each with
  `int(v * 32767.0)`, packs the derivative shifted left by 16 bits or-ed
  with the masked sigmoid channel, and renders zero-padded 8-character
  uppercase hex.

The development embeds the numeric pipeline over the real numbers (the
scripts use IEEE doubles; every double is a rational, and the claims under
study are about the exact mathematical pipeline).  Python's `int(...)`
truncates toward zero and Python's `round(...)` rounds half to even; both
are modelled generically over any linear ordered field with a floor so that
concrete instances over `ℚ` stay decidable.
-/

namespace EEB

/-- Python `int(x)` applied to a real quantity: truncation toward zero. -/
def pyInt {α : Type} [LinearOrderedField α] [FloorRing α] (x : α) : ℤ :=
  if x < 0 then -⌊-x⌋ else ⌊x⌋

/-- Python `round(x)` on a real quantity: round to nearest, ties to even. -/
def pyRound {α : Type} [LinearOrderedField α] [FloorRing α] (x : α) : ℤ :=
  if x - ⌊x⌋ = 1 / 2 then (if ⌊x⌋ % 2 = 0 then ⌊x⌋ else ⌊x⌋ + 1)
  else round x

/-- Lowercase hexadecimal digit, as produced by Python's `x` format. -/
def hexDigitL (n : ℕ) : Char :=
  if n < 10 then Char.ofNat (48 + n) else Char.ofNat (87 + n)

/-- Uppercase hexadecimal digit, as produced by Python's `X` format. -/
def hexDigitU (n : ℕ) : Char :=
  if n < 10 then Char.ofNat (48 + n) else Char.ofNat (55 + n)

/-- Hexadecimal digit string of `n` (empty for zero), most significant digit
first; `fuel` bounds the recursion depth and any `fuel ≥ n` is enough. -/
def hexRepAux (dig : ℕ → Char) : ℕ → ℕ → List Char
  | 0, _ => []
  | fuel + 1, n =>
    if n = 0 then [] else hexRepAux dig fuel (n / 16) ++ [dig (n % 16)]

/-- Hexadecimal digit list of a natural number, empty for zero. -/
def hexRep (dig : ℕ → Char) (n : ℕ) : List Char :=
  hexRepAux dig n n

/-- Python zero-padded rendering of a nonnegative value: the digit
string of `n`, left padded with zeros to a minimum width `w`. -/
def hexPad (dig : ℕ → Char) (w : ℕ) (n : ℕ) : List Char :=
  List.replicate (w - (hexRep dig n).length) '0' ++ hexRep dig n

/-- Python zero-padded hex formatting of an integer (format 04x or 08X);
a negative value renders as a minus sign followed by the
magnitude padded to one character less, exactly as Python pads the signed
field to the requested total width. -/
def pyHex (dig : ℕ → Char) (w : ℕ) (z : ℤ) : String :=
  if z < 0 then ⟨'-' :: hexPad dig (w - 1) (-z).toNat⟩
  else ⟨hexPad dig w z.toNat⟩

/-- Word packing from `lut_gen.py`: `(c1 << 16) | (c0 & 0xFFFF)` on Python
integers.  On arbitrary-precision two's-complement integers `x & 0xFFFF` is
`x % 2^16` (with `%` the nonnegative Euclidean remainder, as in Python),
`x << 16` is `x * 2^16`, and the bitwise or of a multiple of `2^16` with a
value in `[0, 2^16)` touches disjoint bits, hence is addition. -/
def packWord (c0 c1 : ℤ) : ℤ :=
  c1 * 2 ^ 16 + c0 % 2 ^ 16

/-- Fixed-point quantizer following the spec's words: `round(v * 2^frac)`
(round to nearest with the tie rule fixed to half-to-even, the rule the
arccosine script uses), clamped to the representable range of `bits`
(signed: `[-2^(bits-1), 2^(bits-1)-1]`; unsigned: `[0, 2^bits-1]`). -/
def specQuantize {α : Type} [LinearOrderedField α] [FloorRing α]
    (bits frac : ℕ) (signed : Bool) (v : α) : ℤ :=
  let q := pyRound (v * 2 ^ frac)
  let lo : ℤ := if signed then -(2 ^ (bits - 1)) else 0
  let hi : ℤ := if signed then 2 ^ (bits - 1) - 1 else 2 ^ bits - 1
  max lo (min hi q)

/-- Word packer following the spec's words: every channel is masked to its
16-bit width before being shifted into place and combined with bitwise or
(again disjoint bits, hence addition). -/
def specPackWord (c0 c1 : ℤ) : ℤ :=
  (c1 % 2 ^ 16) * 2 ^ 16 + c0 % 2 ^ 16

section PrimLemmas

variable {α : Type} [LinearOrderedField α] [FloorRing α]

/-- Truncation toward zero agrees with the floor on nonnegative inputs. -/
theorem pyInt_of_nonneg {x : α} (hx : 0 ≤ x) : pyInt x = ⌊x⌋ := by
  unfold pyInt
  rw [if_neg (not_lt.mpr hx)]

/-- Rounding an integer returns it unchanged. -/
theorem pyRound_intCast (n : ℤ) : pyRound ((n : α)) = n := by
  unfold pyRound
  rw [Int.floor_intCast]
  have h : (n : α) - n = 0 := by ring
  rw [h, if_neg (by norm_num), round_intCast]

/-- Round-half-to-even lands within half a unit of its argument. -/
theorem abs_pyRound_sub (x : α) : |(pyRound x : α) - x| ≤ 1 / 2 := by
  unfold pyRound
  by_cases h : x - ⌊x⌋ = 1 / 2
  · have hx : x = (⌊x⌋ : α) + 1 / 2 := by linarith
    by_cases he : ⌊x⌋ % 2 = 0
    · rw [if_pos h, if_pos he, abs_le]
      constructor <;> linarith
    · rw [if_pos h, if_neg he, abs_le]
      push_cast
      constructor <;> linarith
  · rw [if_neg h]
    have := abs_sub_round x
    rw [abs_sub_comm] at this
    exact this

/-- Round-half-to-even is at most `x + 1/2`. -/
theorem pyRound_le {x : α} {b : ℤ} (h : x < (b : α) + 1 / 2) :
    pyRound x ≤ b := by
  have h1 := abs_pyRound_sub x
  rw [abs_le] at h1
  have h2 : (pyRound x : α) < (b : α) + 1 := by linarith [h1.2]
  exact_mod_cast Int.lt_add_one_iff.mp (by exact_mod_cast h2)

/-- Round-half-to-even of a nonnegative quantity is nonnegative. -/
theorem pyRound_nonneg {x : α} (h : 0 ≤ x) : 0 ≤ pyRound x := by
  have h1 := abs_pyRound_sub x
  rw [abs_le] at h1
  have h2 : ((-1 : ℤ) : α) < (pyRound x : α) := by push_cast; linarith [h1.1]
  have h3 : (-1 : ℤ) < pyRound x := by exact_mod_cast h2
  omega

end PrimLemmas

/-!
Embedding of `src/scripts/acos_lut_gen.py`.

The script loops `for i in range(256)`, computes
`val = (i / 127.5) - 1.0`, clamps with `val = max(-1.0, min(1.0, val))`,
takes `theta_rad = math.acos(val)`, quantizes with
`theta_q13 = int(round(theta_rad * (2**13)))` (Python round on a float
returns an integer, so the outer int is the identity) and writes the record
as zero-padded 4-character lowercase hex followed by a newline.
-/

/-- Sampled input before clamping: `(i / 127.5) - 1.0`. -/
noncomputable def acosValRaw (i : ℕ) : ℝ :=
  (i : ℝ) / 127.5 - 1

/-- Clamped sample: `max(-1.0, min(1.0, val))`. -/
noncomputable def acosVal (i : ℕ) : ℝ :=
  max (-1) (min 1 (acosValRaw i))

/-- Evaluated function: `math.acos(val)`. -/
noncomputable def theta_rad (i : ℕ) : ℝ :=
  Real.arccos (acosVal i)

/-- Quantized Q2.13 output: `int(round(theta_rad * (2**13)))`. -/
noncomputable def theta_q13 (i : ℕ) : ℤ :=
  pyRound (theta_rad i * 2 ^ 13)

/-- Emitted record for entry `i`: zero-padded 4-char lowercase hex. -/
noncomputable def acosRecord (i : ℕ) : String :=
  pyHex hexDigitL 4 (theta_q13 i)

/-- Record sequence of the arccosine generator for an entry count `n`
(the script fixes `n = 256`). -/
noncomputable def acosRecords (n : ℕ) : List String :=
  (List.range n).map acosRecord

/-!
Embedding of `src/scripts/lut_gen.py`.
-/

/-- Sigmoid evaluator of `lut_gen.py`: branches returning the limit values
for `x < -10.0` and `x > 10.0`, otherwise `1.0 / (1.0 + math.exp(-x))`. -/
noncomputable def sigmoid (x : ℝ) : ℝ :=
  if x < -10 then 0
  else if x > 10 then 1
  else 1 / (1 + Real.exp (-x))

/-- Derivative channel of `lut_gen.py`: `s * (1.0 - s)` with `s` the
already evaluated sigmoid. -/
noncomputable def sigmoid_derivative (x : ℝ) : ℝ :=
  sigmoid x * (1 - sigmoid x)

/-- Generation configuration fixed at the top of `main`. -/
structure LutConfig where
  num_entries : ℕ
  min_val : ℝ
  max_val : ℝ

/-- Configuration the script runs with: 1024 entries over `[-8.0, 8.0)`. -/
noncomputable def defaultConfig : LutConfig :=
  ⟨1024, -8, 8⟩

/-- Step size: `(max_val - min_val) / num_entries`. -/
noncomputable def step (c : LutConfig) : ℝ :=
  (c.max_val - c.min_val) / c.num_entries

/-- Sampled input for entry `i`: `x = min_val + i * step`. -/
noncomputable def sigX (c : LutConfig) (i : ℕ) : ℝ :=
  c.min_val + i * step c

/-- Quantized sigmoid channel: `sig_fixed = int(sig * 32767.0)`. -/
noncomputable def sig_fixed (c : LutConfig) (i : ℕ) : ℤ :=
  pyInt (sigmoid (sigX c i) * 32767)

/-- Quantized derivative channel: `sig_d_fixed = int(sig_d * 32767.0)`. -/
noncomputable def sig_d_fixed (c : LutConfig) (i : ℕ) : ℤ :=
  pyInt (sigmoid_derivative (sigX c i) * 32767)

/-- Packed word for entry `i`:
`val = (sig_d_fixed << 16) | (sig_fixed & 0xFFFF)`. -/
noncomputable def sigWord (c : LutConfig) (i : ℕ) : ℤ :=
  packWord (sig_fixed c i) (sig_d_fixed c i)

/-- Header comment lines written before the data records. -/
def sigHeader : List String :=
  ["// Boreal Neuro-Core v4.0 Sigmoid/Derivative LUT",
   "// Format: 32-bit hex (Bits [31:16] = Derivative, [15:0] = Sigmoid)",
   "// Value mapped using Q0.15 Fixed-Point notation."]

/-- Data records of the sigmoid generator: zero-padded 8-char uppercase
hex per entry. -/
noncomputable def sigRecords (c : LutConfig) : List String :=
  (List.range c.num_entries).map (fun i => pyHex hexDigitU 8 (sigWord c i))

/-- Full line sequence of `sigmoid_lut.mem`: headers then data records. -/
noncomputable def sigFileLines (c : LutConfig) : List String :=
  sigHeader ++ sigRecords c

/-- Byte content of an emitted file: each line followed by a newline. -/
def fileText (lines : List String) : String :=
  String.join (lines.map (fun l => l ++ "\x0A"))

/-!
Helper lemmas shared by the claim theorems.
-/

/-- Digit strings stay within `k` characters for inputs below `16 ^ k`. -/
theorem hexRepAux_length_le (dig : ℕ → Char) :
    ∀ (fuel n k : ℕ), n < 16 ^ k → (hexRepAux dig fuel n).length ≤ k := by
  intro fuel
  induction fuel with
  | zero => intro n k _; simp [hexRepAux]
  | succ fuel ih =>
    intro n k hn
    unfold hexRepAux
    by_cases h0 : n = 0
    · simp [h0]
    · rw [if_neg h0]
      have hk : k ≠ 0 := by
        intro hk0
        rw [hk0] at hn
        omega
      obtain ⟨k0, rfl⟩ := Nat.exists_eq_succ_of_ne_zero hk
      have hdiv : n / 16 < 16 ^ k0 := by
        rw [Nat.div_lt_iff_lt_mul (by norm_num)]
        calc n < 16 ^ (k0 + 1) := hn
        _ = 16 ^ k0 * 16 := by rw [pow_succ]
      have := ih (n / 16) k0 hdiv
      simp only [List.length_append, List.length_cons, List.length_nil]
      omega

/-- Digit strings stay within `k` characters for inputs below `16 ^ k`. -/
theorem hexRep_length_le (dig : ℕ → Char) (n k : ℕ) (h : n < 16 ^ k) :
    (hexRep dig n).length ≤ k :=
  hexRepAux_length_le dig n n k h

/-- Rendering a nonnegative value below `16 ^ w` gives exactly `w`
characters. -/
theorem pyHex_length (dig : ℕ → Char) (w : ℕ) (z : ℤ)
    (h0 : 0 ≤ z) (hw : z < 16 ^ w) : (pyHex dig w z).length = w := by
  unfold pyHex
  rw [if_neg (not_lt.mpr h0)]
  have hlt : z.toNat < 16 ^ w := by
    have h16 : ((16 : ℤ) ^ w) = ((16 ^ w : ℕ) : ℤ) := by push_cast; ring
    omega
  have hlen := hexRep_length_le dig z.toNat w hlt
  show (hexPad dig w z.toNat).length = w
  unfold hexPad
  rw [List.length_append, List.length_replicate]
  omega

/-- Round-half-to-even sends the open unit interval centered at an integer
to that integer. -/
theorem pyRound_eq_of_mem {α : Type} [LinearOrderedField α] [FloorRing α]
    {x : α} {n : ℤ} (h1 : (n : α) - 1 / 2 < x) (h2 : x < (n : α) + 1 / 2) :
    pyRound x = n := by
  have hfl : ⌊x⌋ = n ∨ ⌊x⌋ = n - 1 := by
    have ha : (n : α) - 1 ≤ x := by linarith
    have hb : x < (n : α) + 1 := by linarith
    have h3 : n - 1 ≤ ⌊x⌋ := by
      have := Int.le_floor.mpr (by push_cast; linarith : ((n - 1 : ℤ) : α) ≤ x)
      omega
    have h4 : ⌊x⌋ < n + 1 := Int.floor_lt.mpr (by push_cast; linarith)
    omega
  have hne : x - (⌊x⌋ : α) ≠ 1 / 2 := by
    intro he
    rcases hfl with hf | hf
    · rw [hf] at he; linarith
    · rw [hf] at he; push_cast at he; linarith
  unfold pyRound
  rw [if_neg hne, round_eq, Int.floor_eq_iff]
  constructor <;> [linarith; (push_cast; linarith)]

/-- Bracketing of `exp 10` sufficient for the saturation analysis. -/
theorem exp_ten_bounds : 16383 < Real.exp 10 ∧ Real.exp 10 < 32766 := by
  have hpow : Real.exp 10 = Real.exp 1 ^ 10 := by
    rw [← Real.exp_nat_mul]
    norm_num
  constructor
  · have hl : (2.7 : ℝ) < Real.exp 1 :=
      lt_trans (by norm_num) Real.exp_one_gt_d9
    have h2 : (2.7 : ℝ) ^ 10 < Real.exp 1 ^ 10 :=
      pow_lt_pow_left₀ hl (by norm_num) (by norm_num)
    have h3 : (16383 : ℝ) < (2.7 : ℝ) ^ 10 := by norm_num
    rw [hpow]
    linarith
  · have hu : Real.exp 1 < (2.72 : ℝ) :=
      lt_trans Real.exp_one_lt_d9 (by norm_num)
    have h2 : Real.exp 1 ^ 10 < (2.72 : ℝ) ^ 10 :=
      pow_lt_pow_left₀ hu (Real.exp_pos 1).le (by norm_num)
    have h3 : (2.72 : ℝ) ^ 10 < 32766 := by norm_num
    rw [hpow]
    linarith

/-- Sigmoid output stays inside the unit interval. -/
theorem sigmoid_mem (x : ℝ) : 0 ≤ sigmoid x ∧ sigmoid x ≤ 1 := by
  unfold sigmoid
  split_ifs
  · norm_num
  · norm_num
  · have hexp : 0 < Real.exp (-x) := Real.exp_pos (-x)
    constructor
    · positivity
    · rw [div_le_one (by positivity)]
      linarith

/-- Clamped arccosine sample lies in the function's domain. -/
theorem acosVal_mem (i : ℕ) : -1 ≤ acosVal i ∧ acosVal i ≤ 1 := by
  unfold acosVal
  constructor
  · exact le_max_left _ _
  · exact max_le (by norm_num) (min_le_left _ _)

/-- Quantized arccosine outputs lie in `[0, 25736]`. -/
theorem theta_q13_bounds (i : ℕ) : 0 ≤ theta_q13 i ∧ theta_q13 i ≤ 25736 := by
  have hθ0 : 0 ≤ theta_rad i := Real.arccos_nonneg _
  have hθπ : theta_rad i ≤ Real.pi := Real.arccos_le_pi _
  have hπ : Real.pi < 3.141593 := Real.pi_lt_d6
  unfold theta_q13
  constructor
  · exact pyRound_nonneg (by positivity)
  · refine pyRound_le ?_
    have : theta_rad i * 2 ^ 13 < 3.141593 * 2 ^ 13 := by nlinarith
    push_cast
    nlinarith

/-!
Claim theorems.
-/

/-- C4 counterexample: the sigmoid generator's pack step leaves channel 1
unmasked, so a channel-1 value of `2^16` reaches bit 32 of the word, while
the spec's fully masked packer would discard it: the claim that every
channel is masked to its 16-bit width fails at `(c0, c1) = (0, 65536)`. -/
theorem c4_counterexample :
    packWord 0 65536 = 4294967296 ∧ specPackWord 0 65536 = 0 := by
  constructor <;> decide

/-- C4 (amended): the pack step masks only channel 0 to its 16-bit width
before combining; channel 1 is shifted unmasked, so the packed word agrees
with the spec's both-channels-masked form exactly when `0 ≤ c1 < 2^16`,
and in particular channel-0 `0x1234` with channel-1 `0x5678` packs to
`0x56781234` (channel 1 in bits 31..16, channel 0 in bits 15..0). -/
theorem c4_pack_masked_agreement :
    (∀ c0 c1 : ℤ, 0 ≤ c1 → c1 < 2 ^ 16 → packWord c0 c1 = specPackWord c0 c1)
    ∧ packWord 0x1234 0x5678 = 0x56781234 := by
  constructor
  · intro c0 c1 h1 h2
    unfold packWord specPackWord
    rw [Int.emod_eq_of_lt h1 h2]
  · decide

/-- C4 witness: the amended packing agreement applied at the concrete
channel pair `(0x1234, 0x5678)`. -/
theorem c4_witness :
    (0 : ℤ) ≤ 0x5678 ∧ (0x5678 : ℤ) < 2 ^ 16
    ∧ packWord 0x1234 0x5678 = specPackWord 0x1234 0x5678 :=
  ⟨by decide, by decide,
    c4_pack_masked_agreement.1 0x1234 0x5678 (by decide) (by decide)⟩

/-- C7: for every index `i < 256` the arccosine sampler produces
`x = i / ((N-1)/2) - 1.0` with `N = 256` (the spec's normalized transform,
read with `(N-1)/2 = 127.5` as in the source) and the subsequent clamp to
`[-1, 1]` is the identity on it, so the value handed to the arccosine
evaluator always lies in `[-1, 1]`. -/
theorem c7_sampler_domain (i : ℕ) (h : i < 256) :
    acosVal i = (i : ℝ) / ((256 - 1) / 2) - 1
    ∧ -1 ≤ acosVal i ∧ acosVal i ≤ 1 := by
  have hle : (i : ℝ) ≤ 255 := by exact_mod_cast Nat.le_of_lt_succ h
  have h0 : (0 : ℝ) ≤ (i : ℝ) := Nat.cast_nonneg i
  have hraw0 : acosValRaw i = (i : ℝ) / 127.5 - 1 := rfl
  have hub : acosValRaw i ≤ 1 := by
    rw [hraw0]
    have : (i : ℝ) / 127.5 ≤ 2 := by
      rw [div_le_iff₀ (by norm_num)]
      linarith
    linarith
  have hlb : -1 ≤ acosValRaw i := by
    rw [hraw0]
    have : 0 ≤ (i : ℝ) / 127.5 := by positivity
    linarith
  have hid : acosVal i = acosValRaw i := by
    unfold acosVal
    rw [min_eq_right hub, max_eq_right hlb]
  refine ⟨?_, ?_, ?_⟩
  · rw [hid, hraw0]
    norm_num
  · rw [hid]; exact hlb
  · rw [hid]; exact hub

/-- C7 witness: the sampler and clamp property at index 0. -/
theorem c7_witness :
    0 < 256
    ∧ (acosVal 0 = (0 : ℝ) / ((256 - 1) / 2) - 1
       ∧ -1 ≤ acosVal 0 ∧ acosVal 0 ≤ 1) :=
  ⟨by decide, by exact_mod_cast c7_sampler_domain 0 (by decide)⟩

/-- C8: each generator's output is a pure function of its fixed
configuration, so two runs with identical configuration produce
byte-identical file content. -/
theorem c8_deterministic :
    (∀ c c2 : LutConfig, c = c2 →
      fileText (sigFileLines c) = fileText (sigFileLines c2))
    ∧ (∀ n n2 : ℕ, n = n2 →
      fileText (acosRecords n) = fileText (acosRecords n2)) := by
  constructor
  · intro c c2 h
    rw [h]
  · intro n n2 h
    rw [h]

/-- C8 witness: two runs with the scripts' own configurations. -/
theorem c8_witness :
    (defaultConfig = defaultConfig
      ∧ fileText (sigFileLines defaultConfig)
        = fileText (sigFileLines defaultConfig))
    ∧ ((256 : ℕ) = 256
      ∧ fileText (acosRecords 256) = fileText (acosRecords 256)) :=
  ⟨⟨rfl, c8_deterministic.1 defaultConfig defaultConfig rfl⟩,
   ⟨rfl, c8_deterministic.2 256 256 rfl⟩⟩

/-- C1 counterexample: the sigmoid evaluator produces the channel value
`1/2` at the sampled input `x = 0`, and the generator quantizes it with
`int(0.5 * 32767.0) = 16383`, while the claimed rule
`round(v * 2^15)` clamped to the signed 16-bit range gives `16384`; the
sigmoid generator therefore does not implement the claimed quantizer. -/
theorem c1_counterexample :
    sigmoid (0 : ℝ) = 1 / 2
    ∧ pyInt (sigmoid (0 : ℝ) * 32767) = 16383
    ∧ specQuantize 16 15 true (sigmoid (0 : ℝ)) = 16384 := by
  have hs : sigmoid (0 : ℝ) = 1 / 2 := by
    unfold sigmoid
    rw [if_neg (by norm_num), if_neg (by norm_num), neg_zero, Real.exp_zero]
    norm_num
  refine ⟨hs, ?_, ?_⟩
  · rw [hs]
    norm_num [pyInt]
  · rw [hs]
    have hcast : (1 / 2 : ℝ) * 2 ^ 15 = ((16384 : ℤ) : ℝ) := by norm_num
    unfold specQuantize
    rw [hcast, pyRound_intCast]
    decide

/-- C1 (amended): the arccosine generator's Q2.13 value equals the spec's
quantizer, round to nearest (ties to even) at scale `2^13` clamped to the
signed 16-bit range, the clamp being the identity on its value range; the
sigmoid generator's Q0.15 channels instead truncate toward zero at scale
`2^15 - 1 = 32767` (equivalently, take the floor, since its channel values
are nonnegative), with no rounding and no clamping. -/
theorem c1_quantizer_rules :
    (∀ i : ℕ, theta_q13 i = specQuantize 16 13 true (theta_rad i))
    ∧ (∀ v : ℝ, 0 ≤ v → pyInt (v * 32767) = ⌊v * 32767⌋) := by
  constructor
  · intro i
    obtain ⟨h0, h1⟩ := theta_q13_bounds i
    unfold theta_q13 at h0 h1 ⊢
    simp only [specQuantize]
    omega
  · intro v hv
    exact pyInt_of_nonneg (by positivity)

/-- C1 witness: the truncation rule of the amended claim at the channel
value 0. -/
theorem c1_witness :
    (0 : ℝ) ≤ 0 ∧ pyInt ((0 : ℝ) * 32767) = ⌊(0 : ℝ) * 32767⌋ :=
  ⟨le_refl 0, c1_quantizer_rules.2 0 (le_refl 0)⟩

/-- C2 counterexample: at the boundary input `x = -10` the evaluator takes
its generic branch (the guard is strict), giving `1 / (1 + exp 10)`, and
the quantized sigmoid channel is `1`, not the claimed exact `0`. -/
theorem c2_counterexample :
    pyInt (sigmoid (-10 : ℝ) * 32767) = 1 := by
  have hs : sigmoid (-10 : ℝ) = 1 / (1 + Real.exp 10) := by
    unfold sigmoid
    rw [if_neg (by norm_num), if_neg (by norm_num), neg_neg]
  obtain ⟨hE1, hE2⟩ := exp_ten_bounds
  have hEpos : (0 : ℝ) < 1 + Real.exp 10 := by positivity
  have hval : sigmoid (-10 : ℝ) * 32767 = 32767 / (1 + Real.exp 10) := by
    rw [hs]; ring
  have hge : (1 : ℝ) ≤ 32767 / (1 + Real.exp 10) := by
    rw [le_div_iff₀ hEpos]; linarith
  have hlt : 32767 / (1 + Real.exp 10) < 2 := by
    rw [div_lt_iff₀ hEpos]; linarith
  rw [hval, pyInt_of_nonneg (by positivity), Int.floor_eq_iff]
  push_cast
  exact ⟨hge, by linarith⟩

/-- C2 (amended): the evaluator's saturation guards are strict, so every
input `x < -10` produces quantized sigmoid channel exactly 0 and every
input `x > 10` produces exactly `0x7FFF = 32767`; at the boundary points
`x = -10` and `x = 10` themselves the generic branch runs instead. -/
theorem c2_saturation_strict (x : ℝ) :
    (x < -10 → pyInt (sigmoid x * 32767) = 0)
    ∧ (10 < x → pyInt (sigmoid x * 32767) = 32767) := by
  constructor
  · intro h
    have hs : sigmoid x = 0 := by
      unfold sigmoid
      rw [if_pos h]
    rw [hs]
    norm_num [pyInt]
  · intro h
    have hs : sigmoid x = 1 := by
      unfold sigmoid
      rw [if_neg (by linarith), if_pos h]
    rw [hs]
    norm_num [pyInt]

/-- C2 witness: strict saturation at the concrete inputs -11 and 11. -/
theorem c2_witness :
    ((-11 : ℝ) < -10 ∧ pyInt (sigmoid (-11 : ℝ) * 32767) = 0)
    ∧ ((10 : ℝ) < 11 ∧ pyInt (sigmoid (11 : ℝ) * 32767) = 32767) :=
  ⟨⟨by norm_num, (c2_saturation_strict (-11)).1 (by norm_num)⟩,
   ⟨by norm_num, (c2_saturation_strict 11).2 (by norm_num)⟩⟩

/-- C3 counterexample: the in-range channel value `v = 65533/65534` (so
`v * 32767 = 32766.5`) truncates to `32766`, whose decoded approximation
`32766 / 2^15` misses `v` by about `2^-14.42`, exceeding the claimed
`2^-15` bound; the sigmoid channels do not satisfy the claimed round-trip
accuracy. -/
theorem c3_counterexample :
    (0 ≤ (65533 / 65534 : ℚ) ∧ (65533 / 65534 : ℚ) ≤ 1)
    ∧ ¬ (|((pyInt ((65533 / 65534 : ℚ) * 32767) : ℚ)) / 2 ^ 15
          - 65533 / 65534| ≤ 1 / 2 ^ 15) := by
  refine ⟨⟨by norm_num, by norm_num⟩, ?_⟩
  have hq : pyInt ((65533 / 65534 : ℚ) * 32767) = 32766 := by
    norm_num [pyInt]
  rw [hq, abs_le]
  intro hcon
  have hlow := hcon.1
  norm_num at hlow

/-- C3 (amended): the arccosine quantization (round to nearest at scale
`2^13`) decodes to within `2^-13` of the original value — in fact within
`2^-14` — for every real input, and in particular for every table entry;
the sigmoid channels (truncation at scale `32767`) decode to within
`2^-14`, not `2^-15`, for every in-range channel value `v ∈ [0, 1]`. -/
theorem c3_roundtrip_bounds :
    (∀ v : ℝ, |((pyRound (v * 2 ^ 13) : ℝ)) / 2 ^ 13 - v| ≤ 1 / 2 ^ 13)
    ∧ (∀ v : ℝ, 0 ≤ v → v ≤ 1 →
        |((pyInt (v * 32767) : ℝ)) / 2 ^ 15 - v| ≤ 1 / 2 ^ 14)
    ∧ (∀ i : ℕ, |((theta_q13 i : ℝ)) / 2 ^ 13 - theta_rad i| ≤ 1 / 2 ^ 13) := by
  have hgen : ∀ v : ℝ,
      |((pyRound (v * 2 ^ 13) : ℝ)) / 2 ^ 13 - v| ≤ 1 / 2 ^ 13 := by
    intro v
    have h := abs_pyRound_sub (v * 2 ^ 13)
    rw [abs_le] at h ⊢
    obtain ⟨ha, hb⟩ := h
    constructor <;> nlinarith
  refine ⟨hgen, ?_, fun i => hgen (theta_rad i)⟩
  intro v hv0 hv1
  have hm : (0 : ℝ) ≤ v * 32767 := by positivity
  rw [pyInt_of_nonneg hm]
  have h1 : ((⌊v * 32767⌋ : ℝ)) ≤ v * 32767 := Int.floor_le _
  have h2 : v * 32767 < (⌊v * 32767⌋ : ℝ) + 1 := Int.lt_floor_add_one _
  rw [abs_le]
  constructor <;> nlinarith

/-- C3 witness: the amended sigmoid-channel round-trip bound at the
channel value 0. -/
theorem c3_witness :
    (0 : ℝ) ≤ 0 ∧ (0 : ℝ) ≤ 1
    ∧ |((pyInt ((0 : ℝ) * 32767) : ℝ)) / 2 ^ 15 - 0| ≤ 1 / 2 ^ 14 :=
  ⟨le_refl 0, zero_le_one, c3_roundtrip_bounds.2.1 0 (le_refl 0) zero_le_one⟩

/-- C6: index 0 of the arccosine generator samples `x = -1` and emits the
quantized Q2.13 value of `acos(-1) = π`, namely `25736` rendered as the
record 6488; index 255 samples `x = 1` and emits the quantized value of
`acos(1) = 0`, rendered as 0000. -/
theorem c6_endpoint_records :
    acosVal 0 = -1 ∧ theta_q13 0 = 25736 ∧ acosRecord 0 = "6488"
    ∧ acosVal 255 = 1 ∧ theta_q13 255 = 0 ∧ acosRecord 255 = "0000" := by
  have hv0 : acosVal 0 = -1 := by
    unfold acosVal acosValRaw
    have h : ((0 : ℕ) : ℝ) / 127.5 - 1 = -1 := by norm_num
    rw [h, min_eq_right (by norm_num), max_self]
  have ht0 : theta_rad 0 = Real.pi := by
    unfold theta_rad
    rw [hv0, Real.arccos_neg_one]
  have hq0 : theta_q13 0 = 25736 := by
    unfold theta_q13
    rw [ht0]
    have hπ1 := Real.pi_gt_d6
    have hπ2 := Real.pi_lt_d6
    apply pyRound_eq_of_mem
    · push_cast
      nlinarith
    · push_cast
      nlinarith
  have hv255 : acosVal 255 = 1 := by
    unfold acosVal acosValRaw
    have h : ((255 : ℕ) : ℝ) / 127.5 - 1 = 1 := by norm_num
    rw [h, min_self, max_eq_right (by norm_num)]
  have ht255 : theta_rad 255 = 0 := by
    unfold theta_rad
    rw [hv255, Real.arccos_one]
  have hq255 : theta_q13 255 = 0 := by
    unfold theta_q13
    rw [ht255, zero_mul]
    have h := @pyRound_intCast ℝ _ _ 0
    simpa using h
  refine ⟨hv0, hq0, ?_, hv255, hq255, ?_⟩
  · unfold acosRecord
    rw [hq0]
    decide
  · unfold acosRecord
    rw [hq255]
    decide

/-- C5: the arccosine generator emits exactly 256 data records and the
sigmoid generator exactly 1024, the k-th data record renders entry k for
both (so no entry is skipped or duplicated), and the sigmoid file consists
of its 3 header lines, each beginning with the two-character comment
marker, followed by the data records. -/
theorem c5_record_counts :
    (acosRecords 256).length = 256
    ∧ (∀ k : ℕ, k < 256 → (acosRecords 256)[k]? = some (acosRecord k))
    ∧ sigFileLines defaultConfig = sigHeader ++ sigRecords defaultConfig
    ∧ sigHeader.length = 3
    ∧ (∀ s ∈ sigHeader, s.data.take 2 = ['/', '/'])
    ∧ (sigRecords defaultConfig).length = 1024
    ∧ (∀ k : ℕ, k < 1024 → (sigRecords defaultConfig)[k]?
        = some (pyHex hexDigitU 8 (sigWord defaultConfig k)))
    ∧ (∀ k : ℕ, k < 1024 → (sigFileLines defaultConfig)[k + 3]?
        = some (pyHex hexDigitU 8 (sigWord defaultConfig k))) := by
  refine ⟨?_, ?_, rfl, rfl, ?_, ?_, ?_, ?_⟩
  · simp [acosRecords]
  · intro k h
    simp [acosRecords, List.getElem?_range, h]
  · decide
  · simp [sigRecords, defaultConfig]
  · intro k h
    simp [sigRecords, defaultConfig, List.getElem?_range, h]
  · intro k h
    simp [sigFileLines, sigHeader, sigRecords, defaultConfig,
      List.getElem?_cons_succ, List.getElem?_range, h]

/-- C5 witness: counts and record lookups instantiated at index 0 and at
the first header line. -/
theorem c5_witness :
    (0 < 256 ∧ (acosRecords 256)[0]? = some (acosRecord 0))
    ∧ (0 < 1024 ∧ (sigRecords defaultConfig)[0]?
        = some (pyHex hexDigitU 8 (sigWord defaultConfig 0)))
    ∧ (0 < 1024 ∧ (sigFileLines defaultConfig)[0 + 3]?
        = some (pyHex hexDigitU 8 (sigWord defaultConfig 0)))
    ∧ ("// Value mapped using Q0.15 Fixed-Point notation." ∈ sigHeader
       ∧ ("// Value mapped using Q0.15 Fixed-Point notation." : String).data.take 2
         = ['/', '/']) :=
  ⟨⟨by decide, c5_record_counts.2.1 0 (by decide)⟩,
   ⟨by decide, c5_record_counts.2.2.2.2.2.2.1 0 (by decide)⟩,
   ⟨by decide, c5_record_counts.2.2.2.2.2.2.2 0 (by decide)⟩,
   ⟨by decide, c5_record_counts.2.2.2.2.1 _ (by decide)⟩⟩

/-- C9: the sigmoid derivative always lies in `[0, 0.25]`, so its
quantized integer lies in `[0, 8191]` and fits in 14 bits; the unmasked
left shift by 16 therefore never reaches bit 32, and the packed word
lies in `[0, 2^32)`. -/
theorem c9_packed_word_range (x : ℝ) :
    0 ≤ sigmoid_derivative x ∧ sigmoid_derivative x ≤ 1 / 4
    ∧ 0 ≤ pyInt (sigmoid_derivative x * 32767)
    ∧ pyInt (sigmoid_derivative x * 32767) ≤ 8191
    ∧ pyInt (sigmoid_derivative x * 32767) < 2 ^ 14
    ∧ pyInt (sigmoid_derivative x * 32767) * 2 ^ 16 < 2 ^ 32
    ∧ 0 ≤ packWord (pyInt (sigmoid x * 32767))
        (pyInt (sigmoid_derivative x * 32767))
    ∧ packWord (pyInt (sigmoid x * 32767))
        (pyInt (sigmoid_derivative x * 32767)) < 2 ^ 32 := by
  obtain ⟨hs0, hs1⟩ := sigmoid_mem x
  have hd0 : 0 ≤ sigmoid_derivative x := by
    unfold sigmoid_derivative
    exact mul_nonneg hs0 (by linarith)
  have hd4 : sigmoid_derivative x ≤ 1 / 4 := by
    unfold sigmoid_derivative
    nlinarith [sq_nonneg (sigmoid x - 1 / 2)]
  have hm0 : (0 : ℝ) ≤ sigmoid_derivative x * 32767 := by positivity
  have hq : pyInt (sigmoid_derivative x * 32767)
      = ⌊sigmoid_derivative x * 32767⌋ := pyInt_of_nonneg hm0
  have hq0 : 0 ≤ ⌊sigmoid_derivative x * 32767⌋ := Int.floor_nonneg.mpr hm0
  have hq1 : ⌊sigmoid_derivative x * 32767⌋ < 8192 := by
    rw [Int.floor_lt]
    push_cast
    nlinarith
  have hmod0 : 0 ≤ pyInt (sigmoid x * 32767) % 2 ^ 16 :=
    Int.emod_nonneg _ (by norm_num)
  have hmod1 : pyInt (sigmoid x * 32767) % 2 ^ 16 < 2 ^ 16 :=
    Int.emod_lt_of_pos _ (by norm_num)
  rw [hq]
  unfold packWord
  refine ⟨hd0, hd4, hq0, by omega, by omega, by nlinarith, by nlinarith,
    by nlinarith⟩

/-- C10: for every index `i < 256` the arccosine generator's quantized
value lies in `[0, 25736]`, and since it is nonnegative and below `2^16`
the emitted record is exactly 4 hexadecimal characters. -/
theorem c10_record_width (i : ℕ) (h : i < 256) :
    0 ≤ theta_q13 i ∧ theta_q13 i ≤ 25736 ∧ (acosRecord i).length = 4 := by
  obtain ⟨h0, h1⟩ := theta_q13_bounds i
  exact ⟨h0, h1, pyHex_length hexDigitL 4 (theta_q13 i) h0 (by norm_num; omega)⟩

/-- C10 witness: range and record width at index 0. -/
theorem c10_witness :
    0 < 256
    ∧ (0 ≤ theta_q13 0 ∧ theta_q13 0 ≤ 25736
       ∧ (acosRecord 0).length = 4) :=
  ⟨by decide, c10_record_width 0 (by decide)⟩

end EEB
